import Mathlib

/-!
# snp: snippet store reader, name parsing and session construction

A shallow embedding of the pure parts of `main.go`, `snippet.go` and `list.go`
and the properties proved about them.

Conventions of the embedding:

* a Go `string` is the list of its characters (`Str`); the separators the
  program splits on, `"."` and `"/"`, are single ASCII characters, so splitting
  character-wise and byte-wise agree;
* a Go `map` is an association list with unique keys; the order in which Go
  enumerates a map is unspecified, so the enumeration order is an explicit
  argument wherever the program ranges over a map;
* the directory tree is a value: a listing is a list of entries, and a
  directory entry carries the listing `ioutil.ReadDir` would return for it
  (`none` when reading it fails).
-/

namespace Snp

/-! ## Strings -/

/-- A Go string, as the list of its characters. -/
abbrev Str := List Char

/-- Go `strings.Split(s, sep)` for a one-character separator: the segments of
`s` between the occurrences of `sep`; never empty, `[s]` when `sep` does not
occur. -/
def strings_Split (s : Str) (sep : Char) : List Str :=
  match s with
  | [] => [[]]
  | c :: cs =>
    if c = sep then [] :: strings_Split cs sep
    else
      match strings_Split cs sep with
      | [] => [[c]]
      | seg :: rest => (c :: seg) :: rest

/-- Go `strings.Join(elems, sep)`. -/
def strings_Join (elems : List Str) (sep : Str) : Str :=
  match elems with
  | [] => []
  | [a] => a
  | a :: b :: rest => a ++ sep ++ strings_Join (b :: rest) sep

/-- Go `fmt.Sprintf` for formats whose only verb is `%s`, with string
operands: literal characters are copied, each `%s` is replaced by the next
operand. -/
def fmt_Sprintf (format : Str) (args : List Str) : Str :=
  match format, args with
  | [], _ => []
  | '%' :: 's' :: rest, a :: args' => a ++ fmt_Sprintf rest args'
  | '%' :: 's' :: rest, [] => "%!s(MISSING)".toList ++ fmt_Sprintf rest []
  | c :: rest, args' => c :: fmt_Sprintf rest args'

/-- Go's built-in `<` on strings: lexicographic comparison. -/
def strLess (a b : Str) : Bool :=
  match a, b with
  | _, [] => false
  | [], _ :: _ => true
  | x :: xs, y :: ys =>
    if x.toNat < y.toNat then true
    else if y.toNat < x.toNat then false
    else strLess xs ys

/-- The order `slices.Sort` sorts by, `a ≤ b` as `¬ (b < a)`. -/
def strLe (a b : Str) : Prop := strLess b a = false

instance strLe_decidable : DecidableRel strLe := fun a b =>
  inferInstanceAs (Decidable (strLess b a = false))

/-- Go `slices.Sort` on a slice of strings: the ascending rearrangement of the
slice. It is computed here by insertion; the ascending rearrangement of a
slice of strings is unique (`slices_Sort_unique`), so the sorting method does
not show in the result. -/
def slices_Sort (xs : List Str) : List Str := List.insertionSort strLe xs

/-! ## snippet.go -/

def defaultSnippetFolder : Str := "misc".toList
def defaultSnippetName : Str := "Untitled".toList
def defaultSnippetFileName : Str := "snippet.txt".toList
def defaultLanguage : Str := "go".toList

/-- Snippet represents a snippet of code in a language, nested within a
folder. -/
structure Snippet where
  Folder : Str
  Name : Str
  File : Str
  Language : Str
  deriving DecidableEq

/-- The snippet with all of the default values. -/
def defaultSnippet : Snippet :=
  { Folder := defaultSnippetFolder
    Name := defaultSnippetName
    File := defaultSnippetFileName
    Language := defaultLanguage }

/-- The method `Snippet.String`: `fmt.Sprintf("%s/%s.%s", s.Folder, s.Name, s.Language)`. -/
def Snippet.String (s : Snippet) : Str :=
  fmt_Sprintf "%s/%s.%s".toList [s.Folder, s.Name, s.Language]

/-- The method `Snippet.FilterValue` (list.go), the snippet filter value used
when searching. -/
def Snippet.FilterValue (s : Snippet) : Str :=
  s.Folder ++ "/".toList ++ s.Name ++ ".".toList ++ s.Language

/-- The fields of `Config` that the embedded functions read. -/
structure Config where
  Root : Str
  DefaultLanguage : Str
  Theme : Str
  deriving DecidableEq

/-- The file that `Snippet.Content` reads:
`filepath.Join(config.Root, s.Folder, s.File)`. `filepath.Join` is a library
function; it is a parameter here. -/
def Snippet.ContentFile (filepath_Join : List Str → Str) (config : Config)
    (s : Snippet) : Str :=
  filepath_Join [config.Root, s.Folder, s.File]

/-! ## main.go: parseName -/

/-- The function `parseName` returns a folder, name, and language for the given
name. The variable `name` starts as `defaultSnippetName` and is assigned
`tokens[0]` on both branches of the second test, so the initial value never
reaches the result; `folder` and `language` keep their defaults on the else
branches. -/
def parseName (s : Str) : Str × Str × Str :=
  let folder := defaultSnippetFolder
  let language := defaultLanguage
  let tokens := strings_Split s '/'
  let (folder, remaining) :=
    if tokens.length > 1 then (tokens.getD 0 [], tokens.getD 1 [])
    else (folder, tokens.getD 0 [])
  let tokens := strings_Split remaining '.'
  let (name, language) :=
    if tokens.length > 1 then (tokens.getD 0 [], tokens.getD 1 [])
    else (tokens.getD 0 [], language)
  (folder, name, language)

/-! ## main.go: readSnippets -/

/-- An entry of a directory listing (`fs.FileInfo`). A directory carries the
listing that `ioutil.ReadDir` returns for it, `none` when reading fails. -/
inductive DirEntry where
  | file (name : Str)
  | dir (name : Str) (listing : Option (List DirEntry))

/-- The name of an entry, `fs.FileInfo.Name`. -/
def DirEntry.Name : DirEntry → Str
  | .file name => name
  | .dir name _ => name

/-- Whether an entry is a directory, `fs.FileInfo.IsDir`. -/
def DirEntry.IsDir : DirEntry → Bool
  | .file _ => false
  | .dir _ _ => true

/-- The call of `ioutil.ReadDir` on the path of an entry `d` of the root listing
(`filepath.Join(config.Root, d.Name())`): the listing, or `none` on error. -/
def ioutil_ReadDir : DirEntry → Option (List DirEntry)
  | .file _ => none
  | .dir _ listing => listing

/-- The file-name parsing of the `parseFile` closure (lines 164-173): the pair
`(name, lan)` computed from `fname`. -/
def parseFileName (fname : Str) : Str × Str :=
  let str := strings_Split fname '.'
  let lan := "txt".toList
  if str.length < 2 then
    (str.getD 0 [], lan)
  else
    (strings_Join (str.take (str.length - 1)) ".".toList, str.getD (str.length - 1) [])

/-- The `parseFile` closure of `readSnippets`; the captured slice `snippets`
is passed in and the updated slice returned. -/
def parseFile (snippets : List Snippet) (d : DirEntry) (p : Str) : List Snippet :=
  if d.IsDir then snippets
  else
    let fname := d.Name
    let (name, lan) := parseFileName fname
    snippets ++ [{ Name := name, Folder := p, Language := lan, File := [] }]

/-- The `parseDir` closure of `readSnippets`. -/
def parseDir (snippets : List Snippet) (d : DirEntry) : List Snippet :=
  if !d.IsDir then snippets
  else
    match ioutil_ReadDir d with
    | none => snippets
    | some fdd =>
      fdd.foldl (fun acc dd => if !dd.IsDir then parseFile acc dd d.Name else acc) snippets

/-- The function `readSnippets`; `root` is the result of `ioutil.ReadDir(config.Root)`,
`none` when it returns an error. -/
def readSnippets (root : Option (List DirEntry)) : List Snippet :=
  match root with
  | none => []
  | some fd =>
    fd.foldl
      (fun acc d => if !d.IsDir then parseFile acc d defaultSnippetFolder else parseDir acc d)
      []

/-- The file name that `saveSnippet` writes: `fmt.Sprintf("%s.%s", name, language)`. -/
def saveSnippet_file (name language : Str) : Str :=
  fmt_Sprintf "%s.%s".toList [name, language]

/-- The method `Snippets.String(i)`: the string of the snippet at position `i`, `none`
when `i` is out of range. -/
def Snippets_String (snippets : List Snippet) (i : Nat) : Option Str :=
  (snippets.get? i).map Snippet.String

/-- What `listSnippets` prints: `fmt.Println` of each snippet, which formats a
value with a `String` method through it. -/
def listSnippets (snippets : List Snippet) : List Str :=
  snippets.map (fun snippet => snippet.String ++ "\n".toList)

/-! ## main.go: runInteractiveMode -/

/-- A Go map with string keys, as an association list with unique keys. -/
abbrev GoMap (V : Type) := List (Str × V)

/-- Map read with presence, `v, ok := m[k]`. -/
def GoMap.lookup {V : Type} (m : GoMap V) (k : Str) : Option V :=
  match m with
  | [] => none
  | (k', v) :: rest => if k' = k then some v else GoMap.lookup rest k

/-- Map write, `m[k] = v`. -/
def GoMap.set {V : Type} (m : GoMap V) (k : Str) (v : V) : GoMap V :=
  match m with
  | [] => [(k, v)]
  | (k', v') :: rest => if k' = k then (k, v) :: rest else (k', v') :: GoMap.set rest k v

/-- The key set of a map. -/
def GoMap.keys {V : Type} (m : GoMap V) : List Str := m.map Prod.fst

/-- Map read of a slice-valued map, `m[k]`: the zero value `nil` when absent. -/
def GoMap.getSlice {V : Type} (m : GoMap (List V)) (k : Str) : List V :=
  (GoMap.lookup m k).getD []

/-- The part of a bubbles `list.Model` that the session reads: its items. -/
structure ListModel where
  items : List Snippet
  deriving DecidableEq

/-- The function `newList`: `list.New(items, ...)` followed by presentation settings. -/
def newList (items : List Snippet) : ListModel := { items := items }

/-- An order in which Go enumerates the entries of the map `folders`; Go leaves
it unspecified, so every function that rearranges the entries is one. -/
abbrev MapOrder := List (Str × List Snippet) → List (Str × List Snippet)

/-- An enumeration order visits every entry of the map exactly once. -/
def MapOrder.Valid (order : MapOrder) : Prop := ∀ m, (order m).Perm m

/-- Go `maps.Keys(m)`: the keys of `m`, in the enumeration order. -/
def maps_Keys (order : MapOrder) (m : GoMap (List Snippet)) : List Str :=
  (order m).map Prod.fst

/-- Lines 249-253: the map `folders` after the loop over `snippets`. -/
def buildFolders (snippets : List Snippet) : GoMap (List Snippet) :=
  snippets.foldl
    (fun folders snippet =>
      GoMap.set folders snippet.Folder (GoMap.getSlice folders snippet.Folder ++ [snippet]))
    []

/-- Lines 250-256: the slice `items`, which no statement of the loop appends
to, after the `len(items) <= 0` test. -/
def placeholderItems : List Snippet :=
  let items : List Snippet := []
  if items.length ≤ 0 then items ++ [defaultSnippet] else items

/-- Lines 260-268: the slice `folderItems` built from the map `folders`. -/
def folderItems (keysOrder : MapOrder) (folders : GoMap (List Snippet)) : List Str :=
  let foldersSlice := slices_Sort (maps_Keys keysOrder folders)
  let folderItems := foldersSlice.foldl (fun acc folder => acc ++ [folder]) []
  if folderItems.length ≤ 0 then folderItems ++ [defaultSnippetFolder] else folderItems

/-- Lines 281-285: the map `lists` built by ranging over the map `folders`. -/
def buildLists (rangeOrder : MapOrder) (folders : GoMap (List Snippet)) : GoMap ListModel :=
  (rangeOrder folders).foldl (fun lists entry => GoMap.set lists entry.1 (newList entry.2)) []

/-- The fields of `Model` that `runInteractiveMode` fills from the snippets:
the per-folder lists, the items of the folder list and the placeholders of the
three text inputs. -/
structure Model where
  Lists : GoMap ListModel
  Folders : List Str
  inputs : List Str
  deriving DecidableEq

/-- The `Model` that `runInteractiveMode` builds (lines 249-302); `keysOrder`
and `rangeOrder` are the orders in which `maps.Keys(folders)` and
`range folders` enumerate the map. -/
def runInteractiveMode (config : Config) (snippets : List Snippet)
    (keysOrder rangeOrder : MapOrder) : Model :=
  let folders := buildFolders snippets
  { Lists := buildLists rangeOrder folders
    Folders := folderItems keysOrder folders
    inputs :=
      [ defaultSnippetFolder ++ " ".toList
      , defaultSnippetName ++ " ".toList
      , config.DefaultLanguage ] }

/-! ## Reference descriptions -/

/-- The snippet that the store reader reports for a file named `fname` found
under folder `folder`. -/
def snippetOf (folder fname : Str) : Snippet :=
  { Folder := folder
    Name := (parseFileName fname).1
    File := []
    Language := (parseFileName fname).2 }

/-- The file children of a listing, each turned into a snippet of `folder`;
directory children are dropped. -/
def fileChildren (folder : Str) : List DirEntry → List Snippet
  | [] => []
  | .file name :: rest => snippetOf folder name :: fileChildren folder rest
  | .dir _ _ :: rest => fileChildren folder rest

/-- What the store reader is specified to return for a root listing: for each
top-level entry in order, a top-level file gives one snippet of the default
folder, a readable subdirectory gives its file children, an unreadable one
gives nothing. -/
def readSnippets_spec : List DirEntry → List Snippet
  | [] => []
  | .file name :: rest => snippetOf defaultSnippetFolder name :: readSnippets_spec rest
  | .dir d (some children) :: rest => fileChildren d children ++ readSnippets_spec rest
  | .dir _ none :: rest => readSnippets_spec rest

/-! ## Scenarios -/

/-- The store of the scenario: root contains `misc/a.go`, `misc/b.py` and
`notes/c.md`. -/
def scenarioRoot : List DirEntry :=
  [ .dir "misc".toList (some [.file "a.go".toList, .file "b.py".toList])
  , .dir "notes".toList (some [.file "c.md".toList]) ]

/-- A store with a subdirectory nested inside a folder, an unreadable folder
and a top-level file. -/
def nestedRoot : List DirEntry :=
  [ .file "top.sh".toList
  , .dir "notes".toList
      (some [.file "c.md".toList, .dir "deep".toList (some [.file "hidden.go".toList])])
  , .dir "locked".toList none ]

/-- A configuration with the default language and theme. -/
def scenarioConfig : Config :=
  { Root := "/data/snp".toList, DefaultLanguage := defaultLanguage, Theme := "dracula".toList }

/-! # Lemmas -/

/-! ## Splitting and joining -/

theorem strings_Split_ne_nil (s : Str) (sep : Char) : strings_Split s sep ≠ [] := by
  cases s with
  | nil => simp [strings_Split]
  | cons c cs =>
    unfold strings_Split
    split_ifs
    · simp
    · split <;> simp

theorem strings_Split_of_not_mem (s : Str) (sep : Char) (h : sep ∉ s) :
    strings_Split s sep = [s] := by
  induction s with
  | nil => rfl
  | cons c cs ih =>
    have hc : ¬ c = sep := fun e => h (by simp [e])
    have hcs : sep ∉ cs := fun e => h (List.mem_cons_of_mem _ e)
    simp [strings_Split, hc, ih hcs]

theorem strings_Split_append_sep (a b : Str) (sep : Char) (hb : sep ∉ b) :
    strings_Split (a ++ sep :: b) sep = strings_Split a sep ++ [b] := by
  induction a with
  | nil => simp [strings_Split, strings_Split_of_not_mem b sep hb]
  | cons c cs ih =>
    by_cases hc : c = sep
    · simp [strings_Split, hc, ← ih]
    · cases hsp : strings_Split cs sep with
      | nil => exact absurd hsp (strings_Split_ne_nil cs sep)
      | cons seg rest =>
        rw [hsp] at ih
        simp only [List.cons_append]
        rw [strings_Split, if_neg hc, ih, strings_Split, if_neg hc, hsp]
        simp

theorem strings_Join_append_singleton (l : List Str) (x sep : Str) (hl : l ≠ []) :
    strings_Join (l ++ [x]) sep = strings_Join l sep ++ sep ++ x := by
  induction l with
  | nil => exact absurd rfl hl
  | cons a rest ih =>
    cases rest with
    | nil => simp [strings_Join]
    | cons b rest' =>
      have := ih (by simp)
      simp only [List.cons_append] at this ⊢
      simp [strings_Join, this]

theorem strings_Join_Split (s : Str) (sep : Char) :
    strings_Join (strings_Split s sep) [sep] = s := by
  induction s with
  | nil => rfl
  | cons c cs ih =>
    by_cases hc : c = sep
    · simp only [strings_Split, hc, if_true]
      cases hsp : strings_Split cs sep with
      | nil => exact absurd hsp (strings_Split_ne_nil cs sep)
      | cons seg rest =>
        rw [hsp] at ih
        simp [strings_Join, ih]
    · simp only [strings_Split, hc, if_false]
      cases hsp : strings_Split cs sep with
      | nil => exact absurd hsp (strings_Split_ne_nil cs sep)
      | cons seg rest =>
        rw [hsp] at ih
        cases rest with
        | nil => simpa [strings_Join] using ih
        | cons b rest' =>
          simp only [strings_Join] at ih ⊢
          simp [← ih]

/-- Every string containing `c` splits at the last occurrence of `c`. -/
theorem exists_last_occurrence (c : Char) (s : Str) (h : c ∈ s) :
    ∃ a b, s = a ++ c :: b ∧ c ∉ b := by
  induction s with
  | nil => simp at h
  | cons x xs ih =>
    by_cases hx : c ∈ xs
    · obtain ⟨a, b, hab, hb⟩ := ih hx
      exact ⟨x :: a, b, by simp [hab], hb⟩
    · have : c = x := by simpa [hx] using h
      exact ⟨[], xs, by simp [this], hx⟩

/-! ## The file-name parsing of readSnippets -/

theorem parseFileName_of_not_mem (f : Str) (h : '.' ∉ f) :
    parseFileName f = (f, "txt".toList) := by
  simp [parseFileName, strings_Split_of_not_mem f '.' h]

theorem parseFileName_append (name lan : Str) (h : '.' ∉ lan) :
    parseFileName (name ++ '.' :: lan) = (name, lan) := by
  have hne := strings_Split_ne_nil name '.'
  have hlen : 0 < (strings_Split name '.').length := List.length_pos.mpr hne
  have hj := strings_Join_Split name '.'
  unfold parseFileName
  simp only [strings_Split_append_sep name lan '.' h, List.length_append, List.length_singleton]
  have h2 : ¬ ((strings_Split name '.').length + 1 < 2) := by omega
  simp only [h2, if_false, Nat.add_sub_cancel]
  simp [List.getD, hj]

theorem parseFileName_eq_imp (f g : Str) (h : parseFileName f = parseFileName g) :
    f = g ∨ ('.' ∉ f ∧ g = f ++ ".txt".toList) ∨ ('.' ∉ g ∧ f = g ++ ".txt".toList) := by
  by_cases hf : '.' ∈ f <;> by_cases hg : '.' ∈ g
  · obtain ⟨a, b, hab, hb⟩ := exists_last_occurrence '.' f hf
    obtain ⟨c, d, hcd, hd⟩ := exists_last_occurrence '.' g hg
    rw [hab, hcd, parseFileName_append a b hb, parseFileName_append c d hd] at h
    left
    rw [hab, hcd, (Prod.mk.inj h).1, (Prod.mk.inj h).2]
  · obtain ⟨a, b, hab, hb⟩ := exists_last_occurrence '.' f hf
    rw [hab, parseFileName_append a b hb, parseFileName_of_not_mem g hg] at h
    right; right
    refine ⟨hg, ?_⟩
    rw [hab, (Prod.mk.inj h).1, (Prod.mk.inj h).2]
    rfl
  · obtain ⟨c, d, hcd, hd⟩ := exists_last_occurrence '.' g hg
    rw [hcd, parseFileName_append c d hd, parseFileName_of_not_mem f hf] at h
    right; left
    refine ⟨hf, ?_⟩
    rw [hcd, (Prod.mk.inj h).1, ← (Prod.mk.inj h).2]
    rfl
  · rw [parseFileName_of_not_mem f hf, parseFileName_of_not_mem g hg] at h
    exact Or.inl (Prod.mk.inj h).1

theorem parseFile_file (acc : List Snippet) (f p : Str) :
    parseFile acc (.file f) p =
      acc ++ [{ Folder := p, Name := (parseFileName f).1, File := [],
                Language := (parseFileName f).2 }] := by
  simp [parseFile, DirEntry.IsDir, DirEntry.Name]

theorem saveSnippet_file_eq (name language : Str) :
    saveSnippet_file name language = name ++ '.' :: language := by
  simp [saveSnippet_file, fmt_Sprintf]

/-! ## The store reader as a fold -/

theorem parseDir_children_foldl (d : Str) (children : List DirEntry) (acc : List Snippet) :
    children.foldl (fun acc dd => if !dd.IsDir then parseFile acc dd d else acc) acc =
      acc ++ fileChildren d children := by
  induction children generalizing acc with
  | nil => simp [fileChildren]
  | cons dd rest ih =>
    rw [List.foldl_cons, ih]
    cases dd with
    | file name => simp [DirEntry.IsDir, parseFile_file, fileChildren, snippetOf]
    | dir name listing => simp [DirEntry.IsDir, fileChildren]

theorem parseDir_readable (acc : List Snippet) (name : Str) (children : List DirEntry) :
    parseDir acc (.dir name (some children)) = acc ++ fileChildren name children :=
  parseDir_children_foldl name children acc

theorem parseDir_unreadable (acc : List Snippet) (name : Str) :
    parseDir acc (.dir name none) = acc := rfl

theorem readSnippets_foldl (fd : List DirEntry) (acc : List Snippet) :
    fd.foldl
      (fun acc d => if !d.IsDir then parseFile acc d defaultSnippetFolder else parseDir acc d)
      acc = acc ++ readSnippets_spec fd := by
  induction fd generalizing acc with
  | nil => simp [readSnippets_spec]
  | cons d rest ih =>
    rw [List.foldl_cons, ih]
    cases d with
    | file name => simp [DirEntry.IsDir, parseFile_file, readSnippets_spec, snippetOf]
    | dir name listing =>
      cases listing with
      | none => simp [DirEntry.IsDir, readSnippets_spec, parseDir_unreadable]
      | some children => simp [DirEntry.IsDir, readSnippets_spec, parseDir_readable]

theorem readSnippets_one_level_aux (fd : List DirEntry) :
    readSnippets (some fd) = readSnippets_spec fd := by
  rw [readSnippets, readSnippets_foldl, List.nil_append]

/-! ## Splitting at a single separator -/

theorem strings_Split_two (a b : Str) (sep : Char) (ha : sep ∉ a) (hb : sep ∉ b) :
    strings_Split (a ++ sep :: b) sep = [a, b] := by
  rw [strings_Split_append_sep a b sep hb, strings_Split_of_not_mem a sep ha]
  rfl

/-! ## Go maps as association lists -/

theorem GoMap.keys_nil {V : Type} : GoMap.keys ([] : GoMap V) = [] := rfl

theorem GoMap.keys_cons {V : Type} (k : Str) (v : V) (rest : GoMap V) :
    GoMap.keys ((k, v) :: rest) = k :: GoMap.keys rest := rfl

theorem GoMap.set_nil {V : Type} (k : Str) (v : V) :
    GoMap.set ([] : GoMap V) k v = [(k, v)] := rfl

theorem GoMap.set_cons_eq {V : Type} (k : Str) (v v0 : V) (rest : GoMap V) :
    GoMap.set ((k, v0) :: rest) k v = (k, v) :: rest := by
  simp [GoMap.set]

theorem GoMap.set_cons_ne {V : Type} (k k0 : Str) (v v0 : V) (rest : GoMap V) (h : ¬ k0 = k) :
    GoMap.set ((k0, v0) :: rest) k v = (k0, v0) :: GoMap.set rest k v := by
  simp [GoMap.set, h]

theorem GoMap.lookup_nil {V : Type} (k : Str) : GoMap.lookup ([] : GoMap V) k = none := rfl

theorem GoMap.lookup_cons_eq {V : Type} (k : Str) (v0 : V) (rest : GoMap V) :
    GoMap.lookup ((k, v0) :: rest) k = some v0 := by
  simp [GoMap.lookup]

theorem GoMap.lookup_cons_ne {V : Type} (k k0 : Str) (v0 : V) (rest : GoMap V) (h : ¬ k0 = k) :
    GoMap.lookup ((k0, v0) :: rest) k = GoMap.lookup rest k := by
  simp [GoMap.lookup, h]

theorem GoMap.lookup_set {V : Type} (m : GoMap V) (k k' : Str) (v : V) :
    GoMap.lookup (GoMap.set m k v) k' = if k = k' then some v else GoMap.lookup m k' := by
  induction m with
  | nil =>
    by_cases h : k = k'
    · subst h; rw [GoMap.set_nil, GoMap.lookup_cons_eq, if_pos rfl]
    · rw [GoMap.set_nil, GoMap.lookup_cons_ne _ _ _ _ h, if_neg h]
  | cons e rest ih =>
    obtain ⟨k0, v0⟩ := e
    by_cases h0 : k0 = k
    · subst h0
      rw [GoMap.set_cons_eq]
      by_cases h1 : k0 = k'
      · subst h1; rw [GoMap.lookup_cons_eq, if_pos rfl]
      · rw [GoMap.lookup_cons_ne _ _ _ _ h1, GoMap.lookup_cons_ne _ _ _ _ h1, if_neg h1]
    · rw [GoMap.set_cons_ne _ _ _ _ _ h0]
      by_cases h1 : k0 = k'
      · subst h1
        have : ¬ k = k0 := fun e => h0 e.symm
        rw [GoMap.lookup_cons_eq, GoMap.lookup_cons_eq, if_neg this]
      · rw [GoMap.lookup_cons_ne _ _ _ _ h1, GoMap.lookup_cons_ne _ _ _ _ h1, ih]

theorem GoMap.mem_keys_set {V : Type} (m : GoMap V) (k k' : Str) (v : V) :
    k' ∈ GoMap.keys (GoMap.set m k v) ↔ k' = k ∨ k' ∈ GoMap.keys m := by
  induction m with
  | nil => rw [GoMap.set_nil, GoMap.keys_cons, GoMap.keys_nil, List.mem_cons]
  | cons e rest ih =>
    obtain ⟨k0, v0⟩ := e
    by_cases h0 : k0 = k
    · subst h0
      rw [GoMap.set_cons_eq, GoMap.keys_cons, GoMap.keys_cons, List.mem_cons]
      tauto
    · rw [GoMap.set_cons_ne _ _ _ _ _ h0, GoMap.keys_cons, GoMap.keys_cons, List.mem_cons,
        List.mem_cons, ih]
      tauto

theorem GoMap.nodup_keys_set {V : Type} (m : GoMap V) (k : Str) (v : V)
    (h : (GoMap.keys m).Nodup) : (GoMap.keys (GoMap.set m k v)).Nodup := by
  induction m with
  | nil => rw [GoMap.set_nil, GoMap.keys_cons, GoMap.keys_nil]; exact List.nodup_singleton k
  | cons e rest ih =>
    obtain ⟨k0, v0⟩ := e
    rw [GoMap.keys_cons] at h
    have hk0 : k0 ∉ GoMap.keys rest := (List.nodup_cons.mp h).1
    have hrest : (GoMap.keys rest).Nodup := (List.nodup_cons.mp h).2
    by_cases h0 : k0 = k
    · subst h0
      rw [GoMap.set_cons_eq, GoMap.keys_cons]
      exact h
    · have hnot : k0 ∉ GoMap.keys (GoMap.set rest k v) := by
        rw [GoMap.mem_keys_set]
        exact fun hc => hc.elim h0 hk0
      rw [GoMap.set_cons_ne _ _ _ _ _ h0, GoMap.keys_cons]
      exact List.nodup_cons.mpr ⟨hnot, ih hrest⟩

theorem GoMap.lookup_isSome_iff {V : Type} (m : GoMap V) (k : Str) :
    (GoMap.lookup m k).isSome = true ↔ k ∈ GoMap.keys m := by
  induction m with
  | nil => rw [GoMap.lookup_nil, GoMap.keys_nil]; simp
  | cons e rest ih =>
    obtain ⟨k0, v0⟩ := e
    by_cases h0 : k0 = k
    · subst h0
      rw [GoMap.lookup_cons_eq, GoMap.keys_cons]
      simp
    · have : ¬ k = k0 := fun e => h0 e.symm
      rw [GoMap.lookup_cons_ne _ _ _ _ h0, GoMap.keys_cons, List.mem_cons, ih]
      tauto

theorem GoMap.lookup_eq_some_iff {V : Type} (m : GoMap V) (k : Str) (v : V)
    (h : (GoMap.keys m).Nodup) : GoMap.lookup m k = some v ↔ (k, v) ∈ m := by
  induction m with
  | nil => rw [GoMap.lookup_nil]; simp
  | cons e rest ih =>
    obtain ⟨k0, v0⟩ := e
    rw [GoMap.keys_cons] at h
    have hk0 : k0 ∉ GoMap.keys rest := (List.nodup_cons.mp h).1
    have hrest : (GoMap.keys rest).Nodup := (List.nodup_cons.mp h).2
    by_cases h0 : k0 = k
    · subst h0
      have hno : ∀ w, (k0, w) ∉ rest := fun w hw =>
        hk0 (List.mem_map.mpr ⟨(k0, w), hw, rfl⟩)
      rw [GoMap.lookup_cons_eq, List.mem_cons]
      constructor
      · intro e; exact Or.inl (by rw [Option.some.inj e])
      · intro e
        rcases e with e | e
        · rw [(Prod.mk.inj e).2]
        · exact absurd e (hno v)
    · have hne : (k, v) ≠ (k0, v0) := fun e => h0 (Prod.mk.inj e).1.symm
      rw [GoMap.lookup_cons_ne _ _ _ _ h0, List.mem_cons, ih hrest]
      constructor
      · intro e; exact Or.inr e
      · intro e; exact e.elim (fun e => absurd e hne) id

theorem GoMap.lookup_perm {V : Type} (m m' : GoMap V) (k : Str) (hp : m'.Perm m)
    (h : (GoMap.keys m).Nodup) : GoMap.lookup m' k = GoMap.lookup m k := by
  have h' : (GoMap.keys m').Nodup := (hp.map Prod.fst).nodup_iff.mpr h
  apply Option.ext
  intro v
  show GoMap.lookup m' k = some v ↔ GoMap.lookup m k = some v
  rw [GoMap.lookup_eq_some_iff m' k v h', GoMap.lookup_eq_some_iff m k v h]
  exact hp.mem_iff

/-! ## The map folders -/

theorem buildFolders_foldl_nodup (l : List Snippet) (m : GoMap (List Snippet))
    (h : (GoMap.keys m).Nodup) :
    (GoMap.keys (l.foldl
      (fun folders snippet =>
        GoMap.set folders snippet.Folder (GoMap.getSlice folders snippet.Folder ++ [snippet]))
      m)).Nodup := by
  induction l generalizing m with
  | nil => exact h
  | cons s rest ih =>
    rw [List.foldl_cons]
    exact ih _ (GoMap.nodup_keys_set m _ _ h)

theorem buildFolders_foldl_keys (l : List Snippet) (m : GoMap (List Snippet)) (f : Str) :
    f ∈ GoMap.keys (l.foldl
      (fun folders snippet =>
        GoMap.set folders snippet.Folder (GoMap.getSlice folders snippet.Folder ++ [snippet]))
      m) ↔ f ∈ GoMap.keys m ∨ ∃ s ∈ l, s.Folder = f := by
  induction l generalizing m with
  | nil => simp
  | cons s rest ih =>
    rw [List.foldl_cons, ih, GoMap.mem_keys_set]
    simp only [List.mem_cons, exists_eq_or_imp]
    constructor
    · rintro ((h | h) | h)
      · exact Or.inr (Or.inl h.symm)
      · exact Or.inl h
      · exact Or.inr (Or.inr h)
    · rintro (h | h | h)
      · exact Or.inl (Or.inr h)
      · exact Or.inl (Or.inl h.symm)
      · exact Or.inr h

theorem buildFolders_foldl_getSlice (l : List Snippet) (m : GoMap (List Snippet)) (f : Str) :
    GoMap.getSlice (l.foldl
      (fun folders snippet =>
        GoMap.set folders snippet.Folder (GoMap.getSlice folders snippet.Folder ++ [snippet]))
      m) f = GoMap.getSlice m f ++ l.filter (fun s => decide (s.Folder = f)) := by
  induction l generalizing m with
  | nil => simp
  | cons s rest ih =>
    rw [List.foldl_cons, ih]
    by_cases hs : s.Folder = f
    · simp [GoMap.getSlice, GoMap.lookup_set, hs, List.filter_cons]
    · simp [GoMap.getSlice, GoMap.lookup_set, hs, List.filter_cons]

theorem buildFolders_nodup (snippets : List Snippet) :
    (GoMap.keys (buildFolders snippets)).Nodup :=
  buildFolders_foldl_nodup snippets [] (by simp [GoMap.keys])

theorem buildFolders_keys (snippets : List Snippet) (f : Str) :
    f ∈ GoMap.keys (buildFolders snippets) ↔ ∃ s ∈ snippets, s.Folder = f := by
  rw [buildFolders, buildFolders_foldl_keys]
  simp [GoMap.keys]

theorem buildFolders_lookup (snippets : List Snippet) (f : Str) :
    GoMap.lookup (buildFolders snippets) f =
      if ∃ s ∈ snippets, s.Folder = f then
        some (snippets.filter (fun s => decide (s.Folder = f)))
      else none := by
  have hk := buildFolders_keys snippets f
  have hg : GoMap.getSlice (buildFolders snippets) f =
      snippets.filter (fun s => decide (s.Folder = f)) := by
    rw [buildFolders, buildFolders_foldl_getSlice]
    simp [GoMap.getSlice, GoMap.lookup]
  rw [← GoMap.lookup_isSome_iff] at hk
  by_cases hex : ∃ s ∈ snippets, s.Folder = f
  · rw [if_pos hex]
    obtain ⟨v, hv⟩ := Option.isSome_iff_exists.mp (hk.mpr hex)
    rw [GoMap.getSlice, hv] at hg
    rw [hv, ← hg]
    rfl
  · rw [if_neg hex]
    cases hl : GoMap.lookup (buildFolders snippets) f with
    | none => rfl
    | some v => exact absurd (hk.mp (by simp [hl])) hex

/-! ## The map lists -/

theorem buildLists_foldl_lookup (l : List (Str × List Snippet)) (acc : GoMap ListModel)
    (f : Str) (h : (GoMap.keys l).Nodup) :
    GoMap.lookup
      (l.foldl (fun lists entry => GoMap.set lists entry.1 (newList entry.2)) acc) f =
      if f ∈ GoMap.keys l then (GoMap.lookup l f).map newList else GoMap.lookup acc f := by
  induction l generalizing acc with
  | nil => simp [GoMap.keys]
  | cons e rest ih =>
    obtain ⟨k0, v0⟩ := e
    rw [GoMap.keys_cons] at h
    have hk0 : k0 ∉ GoMap.keys rest := (List.nodup_cons.mp h).1
    have hrest : (GoMap.keys rest).Nodup := (List.nodup_cons.mp h).2
    rw [List.foldl_cons, ih _ hrest, GoMap.lookup_set]
    by_cases h0 : k0 = f
    · subst h0
      rw [if_neg hk0, if_pos rfl, GoMap.keys_cons, if_pos (List.mem_cons_self _ _),
        GoMap.lookup_cons_eq]
      rfl
    · have hiff : f ∈ GoMap.keys ((k0, v0) :: rest) ↔ f ∈ GoMap.keys rest := by
        rw [GoMap.keys_cons, List.mem_cons]
        exact ⟨fun e => e.elim (fun e => absurd e.symm h0) id, Or.inr⟩
      rw [if_neg h0, GoMap.lookup_cons_ne _ _ _ _ h0]
      by_cases hf : f ∈ GoMap.keys rest
      · rw [if_pos hf, if_pos (hiff.mpr hf)]
      · rw [if_neg hf, if_neg (fun e => hf (hiff.mp e))]

theorem buildLists_lookup (rangeOrder : MapOrder) (hr : rangeOrder.Valid)
    (folders : GoMap (List Snippet)) (h : (GoMap.keys folders).Nodup) (f : Str) :
    GoMap.lookup (buildLists rangeOrder folders) f = (GoMap.lookup folders f).map newList := by
  have hp := hr folders
  have h' : (GoMap.keys (rangeOrder folders)).Nodup := (hp.map Prod.fst).nodup_iff.mpr h
  rw [buildLists, buildLists_foldl_lookup _ _ _ h', GoMap.lookup_perm folders _ f hp h]
  by_cases hf : f ∈ GoMap.keys (rangeOrder folders)
  · rw [if_pos hf]
  · rw [if_neg hf]
    have hf' : f ∉ GoMap.keys folders := fun hc => hf ((hp.map Prod.fst).mem_iff.mpr hc)
    rw [← GoMap.lookup_isSome_iff] at hf'
    cases hl : GoMap.lookup folders f with
    | none => rfl
    | some v => exact absurd (by simp [hl]) hf'

/-! ## The order on strings -/

theorem Char_toNat_inj (x y : Char) (h : x.toNat = y.toNat) : x = y := by
  apply Char.ext
  apply UInt32.ext
  exact h

theorem strLess_asymm (a b : Str) : strLess a b = true → strLess b a = false := by
  induction a generalizing b with
  | nil => cases b <;> simp [strLess]
  | cons x xs ih =>
    cases b with
    | nil => simp [strLess]
    | cons y ys =>
      simp only [strLess]
      split_ifs with h1 h2 h3 <;> first | omega | simp | exact ih ys

theorem strLe_total (a b : Str) : strLe a b ∨ strLe b a := by
  unfold strLe
  cases h : strLess b a with
  | false => exact Or.inl rfl
  | true => exact Or.inr (strLess_asymm b a h)

theorem strLe_antisymm (a b : Str) (h1 : strLe a b) (h2 : strLe b a) : a = b := by
  unfold strLe at h1 h2
  induction a generalizing b with
  | nil =>
    cases b with
    | nil => rfl
    | cons y ys => simp [strLess] at h2
  | cons x xs ih =>
    cases b with
    | nil => simp [strLess] at h1
    | cons y ys =>
      simp only [strLess] at h1 h2
      by_cases hxy : x.toNat < y.toNat
      · simp [hxy] at h2
      · by_cases hyx : y.toNat < x.toNat
        · simp [hyx] at h1
        · simp only [hxy, hyx, if_false] at h1 h2
          have hx : x = y := Char_toNat_inj x y (by omega)
          rw [hx, ih ys h1 h2]

theorem strLe_trans (a b c : Str) (h1 : strLe a b) (h2 : strLe b c) : strLe a c := by
  unfold strLe at h1 h2 ⊢
  induction a generalizing b c with
  | nil => cases c <;> simp [strLess]
  | cons x xs ih =>
    cases b with
    | nil => simp [strLess] at h1
    | cons y ys =>
      cases c with
      | nil => simp [strLess] at h2
      | cons z zs =>
        simp only [strLess] at h1 h2 ⊢
        by_cases hzx : z.toNat < x.toNat
        · exfalso
          by_cases hyx : y.toNat < x.toNat
          · simp [hyx] at h1
          · by_cases hzy : z.toNat < y.toNat
            · simp [hzy] at h2
            · omega
        · by_cases hxz : x.toNat < z.toNat
          · simp [hzx, hxz]
          · simp only [hzx, hxz, if_false]
            by_cases hyx : y.toNat < x.toNat
            · simp [hyx] at h1
            · by_cases hzy : z.toNat < y.toNat
              · simp [hzy] at h2
              · have e1 : ¬ x.toNat < y.toNat := by omega
                have e2 : ¬ y.toNat < z.toNat := by omega
                simp only [hyx, e1, hzy, e2, if_false] at h1 h2
                exact ih ys zs h1 h2

theorem strLess_of_strLe_of_ne (a b : Str) (h : strLe a b) (hne : a ≠ b) :
    strLess a b = true := by
  cases hl : strLess a b with
  | true => rfl
  | false => exact absurd (strLe_antisymm a b h hl) hne

/-- The comparison `strLess` is the lexicographic order induced by the order
of the characters. -/
theorem strLess_iff_lex (a b : Str) :
    strLess a b = true ↔ List.Lex (fun x y : Char => x.toNat < y.toNat) a b := by
  induction a generalizing b with
  | nil =>
    cases b with
    | nil => simp [strLess]
    | cons y ys => simp [strLess, List.Lex.nil]
  | cons x xs ih =>
    cases b with
    | nil => simp [strLess]
    | cons y ys =>
      simp only [strLess]
      constructor
      · intro h
        by_cases hxy : x.toNat < y.toNat
        · exact List.Lex.rel hxy
        · by_cases hyx : y.toNat < x.toNat
          · simp [hxy, hyx] at h
          · simp only [hxy, hyx, if_false] at h
            have hx : x = y := Char_toNat_inj x y (by omega)
            subst hx
            exact List.Lex.cons ((ih ys).mp h)
      · intro h
        cases h with
        | rel hr => simp [hr]
        | cons hc =>
          have : ¬ x.toNat < x.toNat := by omega
          simp [this, (ih ys).mpr hc]

theorem slices_Sort_perm (xs : List Str) : (slices_Sort xs).Perm xs :=
  List.perm_insertionSort strLe xs

theorem slices_Sort_sorted (xs : List Str) : (slices_Sort xs).Pairwise strLe :=
  @List.sorted_insertionSort Str strLe _ ⟨strLe_total⟩ ⟨strLe_trans⟩ xs

/-- Every ascending rearrangement of `xs` is the one `slices_Sort` returns. -/
theorem slices_Sort_unique (xs l : List Str) (hp : l.Perm xs) (hs : l.Pairwise strLe) :
    l = slices_Sort xs :=
  @List.eq_of_perm_of_sorted Str strLe ⟨strLe_antisymm⟩ l (slices_Sort xs)
    (hp.trans (slices_Sort_perm xs).symm) hs (slices_Sort_sorted xs)

theorem slices_Sort_strict (xs : List Str) (h : xs.Nodup) :
    (slices_Sort xs).Pairwise (fun a b => strLess a b = true) := by
  have h1 := slices_Sort_sorted xs
  have h2 : (slices_Sort xs).Nodup := (slices_Sort_perm xs).nodup_iff.mpr h
  exact List.Pairwise.imp₂ (fun a b hab hne => strLess_of_strLe_of_ne a b hab hne) h1 h2

theorem foldl_append_singleton (xs acc : List Str) :
    xs.foldl (fun acc folder => acc ++ [folder]) acc = acc ++ xs := by
  induction xs generalizing acc with
  | nil => simp
  | cons x rest ih => simp [ih]

theorem folderItems_eq (keysOrder : MapOrder) (folders : GoMap (List Snippet)) :
    folderItems keysOrder folders =
      if slices_Sort (maps_Keys keysOrder folders) = [] then [defaultSnippetFolder]
      else slices_Sort (maps_Keys keysOrder folders) := by
  unfold folderItems
  simp only [foldl_append_singleton, List.nil_append]
  cases h : slices_Sort (maps_Keys keysOrder folders) with
  | nil => simp
  | cons a rest => simp

theorem maps_Keys_perm (keysOrder : MapOrder) (hk : keysOrder.Valid)
    (folders : GoMap (List Snippet)) : (maps_Keys keysOrder folders).Perm (GoMap.keys folders) :=
  (hk folders).map Prod.fst

/-! ## The lists of the model -/

theorem Lists_lookup (config : Config) (snippets : List Snippet)
    (keysOrder rangeOrder : MapOrder) (hr : rangeOrder.Valid) (f : Str) :
    GoMap.lookup (runInteractiveMode config snippets keysOrder rangeOrder).Lists f =
      if ∃ s ∈ snippets, s.Folder = f then
        some (newList (snippets.filter (fun s => decide (s.Folder = f))))
      else none := by
  have hL : (runInteractiveMode config snippets keysOrder rangeOrder).Lists =
      buildLists rangeOrder (buildFolders snippets) := rfl
  rw [hL, buildLists_lookup rangeOrder hr _ (buildFolders_nodup snippets), buildFolders_lookup]
  split_ifs <;> rfl

/-! ## The File field of the snippets read -/

theorem fileChildren_File (folder : Str) (children : List DirEntry) (s : Snippet)
    (h : s ∈ fileChildren folder children) : s.File = [] ∧ s.Folder = folder := by
  induction children with
  | nil => simp [fileChildren] at h
  | cons d rest ih =>
    cases d with
    | file name =>
      simp only [fileChildren, List.mem_cons] at h
      rcases h with h | h
      · rw [h]; exact ⟨rfl, rfl⟩
      · exact ih h
    | dir name listing => exact ih (by simpa [fileChildren] using h)

/-- No snippet returned by `readSnippets` has its `File` field set. -/
theorem readSnippets_File (root : Option (List DirEntry)) (s : Snippet)
    (h : s ∈ readSnippets root) : s.File = [] := by
  cases root with
  | none => simp [readSnippets] at h
  | some fd =>
    rw [(readSnippets_one_level_aux fd)] at h
    induction fd with
    | nil => simp [readSnippets_spec] at h
    | cons d rest ih =>
      cases d with
      | file name =>
        simp only [readSnippets_spec, List.mem_cons] at h
        rcases h with h | h
        · rw [h]; rfl
        · exact ih h
      | dir name listing =>
        cases listing with
        | none => exact ih (by simpa [readSnippets_spec] using h)
        | some children =>
          simp only [readSnippets_spec, List.mem_append] at h
          rcases h with h | h
          · exact (fileChildren_File name children s h).1
          · exact ih h

/-! ## The tokens of parseName -/

theorem strings_Split_not_mem (s : Str) (sep : Char) (seg : Str)
    (h : seg ∈ strings_Split s sep) : sep ∉ seg := by
  induction s generalizing seg with
  | nil =>
    have : seg = [] := by simpa [strings_Split] using h
    rw [this]
    exact List.not_mem_nil _
  | cons c cs ih =>
    by_cases hc : c = sep
    · rw [strings_Split, if_pos hc, List.mem_cons] at h
      rcases h with h | h
      · rw [h]; exact List.not_mem_nil _
      · exact ih seg h
    · rw [strings_Split, if_neg hc] at h
      cases hsp : strings_Split cs sep with
      | nil => exact absurd hsp (strings_Split_ne_nil cs sep)
      | cons seg0 rest =>
        rw [hsp] at h ih
        rcases List.mem_cons.mp h with h | h
        · rw [h]
          intro hm
          rcases List.mem_cons.mp hm with e | e
          · exact hc e.symm
          · exact ih seg0 (List.mem_cons_self _ _) e
        · exact ih seg (List.mem_cons_of_mem _ h)

theorem getD_nil_or_mem (l : List Str) (i : Nat) : l.getD i [] = [] ∨ l.getD i [] ∈ l := by
  induction l generalizing i with
  | nil => exact Or.inl rfl
  | cons a rest ih =>
    cases i with
    | zero => exact Or.inr (List.mem_cons_self _ _)
    | succ j =>
      rcases ih j with h | h
      · exact Or.inl (by simpa using h)
      · exact Or.inr (List.mem_cons_of_mem _ (by simpa using h))

theorem strings_Split_getD_not_mem (s : Str) (sep : Char) (i : Nat) :
    sep ∉ (strings_Split s sep).getD i [] := by
  rcases getD_nil_or_mem (strings_Split s sep) i with h | h
  · rw [h]; exact List.not_mem_nil _
  · exact strings_Split_not_mem s sep _ h

/-- The language that `parseName` returns contains no `.`. -/
theorem parseName_language_dot_free (s : Str) : '.' ∉ (parseName s).2.2 := by
  unfold parseName
  simp only []
  have hgo : '.' ∉ defaultLanguage := by decide
  split_ifs
  · exact strings_Split_getD_not_mem _ '.' 1
  · exact hgo
  · exact strings_Split_getD_not_mem _ '.' 1
  · exact hgo

/-! ## Formatting and parsing a file name -/

/-- Formatting `a` and `b.c` gives `a.b.c`, which is parsed as name `a.b`,
language `c`: the parsing does not invert the formatting of a language that
holds a `.`. Such a language is never formatted by `saveSnippet`, whose
operands come from `parseName` (`parseName_language_dot_free`). -/
theorem saveSnippet_file_dotted_language :
    '/' ∉ "a".toList ∧ '/' ∉ "b.c".toList ∧
    saveSnippet_file "a".toList "b.c".toList = "a.b.c".toList ∧
    parseFileName (saveSnippet_file "a".toList "b.c".toList) = ("a.b".toList, "c".toList) ∧
    parseFileName (saveSnippet_file "a".toList "b.c".toList) ≠ ("a".toList, "b.c".toList) := by
  decide

/-- The file name `name + "." + language` is parsed back into exactly that name
and language if and only if the language contains no `.`. -/
theorem roundtrip_iff_language_dot_free (name lan : Str) :
    parseFileName (saveSnippet_file name lan) = (name, lan) ↔ '.' ∉ lan := by
  rw [saveSnippet_file_eq]
  constructor
  · intro h hl
    obtain ⟨a, b, hab, hb⟩ := exists_last_occurrence '.' lan hl
    have e : name ++ '.' :: lan = (name ++ '.' :: a) ++ '.' :: b := by simp [hab]
    rw [e, parseFileName_append _ b hb] at h
    have := congrArg List.length (Prod.mk.inj h).1
    simp at this
  · exact parseFileName_append name lan

/-- C1: for every file name `f`, the file-name parsing of `readSnippets`
gives name `f` and language `txt` when `f` contains no `.`; otherwise the
language is what follows the last `.` and the name is what precedes it. The
snippet appended by `parseFile` carries exactly that name and language. -/
theorem parseFileName_last_dot (f : Str) :
    ('.' ∉ f → parseFileName f = (f, "txt".toList)) ∧
    ('.' ∈ f → ∃ name lan, f = name ++ ".".toList ++ lan ∧ '.' ∉ lan ∧
      name = strings_Join ((strings_Split f '.').take ((strings_Split f '.').length - 1))
        ".".toList ∧
      parseFileName f = (name, lan)) ∧
    (∀ acc p, parseFile acc (.file f) p =
      acc ++ [{ Folder := p, Name := (parseFileName f).1, File := [],
                Language := (parseFileName f).2 }]) := by
  refine ⟨parseFileName_of_not_mem f, ?_, fun acc p => parseFile_file acc f p⟩
  intro hf
  obtain ⟨a, b, hab, hb⟩ := exists_last_occurrence '.' f hf
  refine ⟨a, b, by simp [hab], hb, ?_, by rw [hab, parseFileName_append a b hb]⟩
  have hne := strings_Split_ne_nil a '.'
  rw [hab, strings_Split_append_sep a b '.' hb]
  simp [strings_Join_Split a '.']

/-- C1 at the file name `a.b.go`: name `a.b`, language `go`. -/
theorem parseFileName_last_dot_witness :
    parseFileName "a.b.go".toList = ("a.b".toList, "go".toList) ∧
    ∃ name lan, "a.b.go".toList = name ++ ".".toList ++ lan ∧ '.' ∉ lan ∧
      name = strings_Join ((strings_Split "a.b.go".toList '.').take
        ((strings_Split "a.b.go".toList '.').length - 1)) ".".toList ∧
      parseFileName "a.b.go".toList = (name, lan) :=
  ⟨by decide, (parseFileName_last_dot "a.b.go".toList).2.1 (by decide)⟩

/-! ## C2 -/

/-- C2: for every list of loaded snippets and every order in which the keys
of the map are enumerated, the folder list built by `runInteractiveMode` is
strictly increasing in lexicographic order; when snippets are loaded it
contains exactly the folder names occurring among them, and when none is
loaded it is exactly `[misc]`. -/
theorem folder_list_sorted_exact (config : Config) (snippets : List Snippet)
    (keysOrder rangeOrder : MapOrder) (hk : keysOrder.Valid) :
    ((runInteractiveMode config snippets keysOrder rangeOrder).Folders).Pairwise
      (fun a b => strLess a b = true) ∧
    (snippets ≠ [] → ∀ f,
      f ∈ (runInteractiveMode config snippets keysOrder rangeOrder).Folders ↔
        ∃ s ∈ snippets, s.Folder = f) ∧
    (snippets = [] →
      (runInteractiveMode config snippets keysOrder rangeOrder).Folders =
        [defaultSnippetFolder]) := by
  have hF : (runInteractiveMode config snippets keysOrder rangeOrder).Folders =
      folderItems keysOrder (buildFolders snippets) := rfl
  have hperm := maps_Keys_perm keysOrder hk (buildFolders snippets)
  have hnodup : (maps_Keys keysOrder (buildFolders snippets)).Nodup :=
    hperm.nodup_iff.mpr (buildFolders_nodup snippets)
  have hmem : ∀ f, f ∈ slices_Sort (maps_Keys keysOrder (buildFolders snippets)) ↔
      ∃ s ∈ snippets, s.Folder = f := fun f => by
    rw [(slices_Sort_perm _).mem_iff, hperm.mem_iff, buildFolders_keys]
  rw [hF, folderItems_eq]
  by_cases hnil : slices_Sort (maps_Keys keysOrder (buildFolders snippets)) = []
  · rw [if_pos hnil]
    refine ⟨List.pairwise_singleton _ _, ?_, fun _ => rfl⟩
    intro hne
    cases snippets with
    | nil => exact absurd rfl hne
    | cons s rest =>
      have : s.Folder ∈ slices_Sort (maps_Keys keysOrder (buildFolders (s :: rest))) :=
        (hmem s.Folder).mpr ⟨s, List.mem_cons_self _ _, rfl⟩
      rw [hnil] at this
      exact absurd this (List.not_mem_nil _)
  · rw [if_neg hnil]
    refine ⟨slices_Sort_strict _ hnodup, fun _ => hmem, ?_⟩
    intro he
    subst he
    cases hs : slices_Sort (maps_Keys keysOrder (buildFolders [])) with
    | nil => exact absurd hs hnil
    | cons a rest =>
      have : a ∈ slices_Sort (maps_Keys keysOrder (buildFolders [])) := by
        rw [hs]; exact List.mem_cons_self _ _
      obtain ⟨s, hs', _⟩ := (hmem a).mp this
      exact absurd hs' (List.not_mem_nil _)

/-- C2 at the scenario store, with the keys enumerated in reverse order: the
folder list is `[misc, notes]`. -/
theorem folder_list_sorted_exact_witness :
    (runInteractiveMode scenarioConfig (readSnippets (some scenarioRoot))
      List.reverse List.reverse).Folders = ["misc".toList, "notes".toList] ∧
    (((runInteractiveMode scenarioConfig (readSnippets (some scenarioRoot))
        List.reverse List.reverse).Folders).Pairwise (fun a b => strLess a b = true) ∧
      (readSnippets (some scenarioRoot) ≠ [] → ∀ f,
        f ∈ (runInteractiveMode scenarioConfig (readSnippets (some scenarioRoot))
            List.reverse List.reverse).Folders ↔
          ∃ s ∈ readSnippets (some scenarioRoot), s.Folder = f) ∧
      (readSnippets (some scenarioRoot) = [] →
        (runInteractiveMode scenarioConfig (readSnippets (some scenarioRoot))
          List.reverse List.reverse).Folders = [defaultSnippetFolder])) :=
  ⟨by decide,
   folder_list_sorted_exact scenarioConfig (readSnippets (some scenarioRoot))
     List.reverse List.reverse (fun m => List.reverse_perm m)⟩

/-! ## C3 -/

/-- C3: for every list of loaded snippets, every order in which the map is
ranged over and every folder `f` occurring among the snippets, the sublist
that `runInteractiveMode` builds for `f` is the subsequence of the loaded
snippets whose folder is `f`, in discovery order; no sublist holds a snippet
of another folder, and every loaded snippet is in the sublist of its own
folder and in no other. -/
theorem lists_per_folder (config : Config) (snippets : List Snippet)
    (keysOrder rangeOrder : MapOrder) (hr : rangeOrder.Valid)
    (f : Str) (hf : ∃ s ∈ snippets, s.Folder = f) :
    GoMap.lookup (runInteractiveMode config snippets keysOrder rangeOrder).Lists f =
      some (newList (snippets.filter (fun s => decide (s.Folder = f)))) ∧
    (∀ g l, GoMap.lookup (runInteractiveMode config snippets keysOrder rangeOrder).Lists g =
        some l → ∀ s ∈ l.items, s.Folder = g) ∧
    (∀ s ∈ snippets, ∃ l,
      GoMap.lookup (runInteractiveMode config snippets keysOrder rangeOrder).Lists s.Folder =
        some l ∧ s ∈ l.items) ∧
    (∀ s ∈ snippets, ∀ g l,
      GoMap.lookup (runInteractiveMode config snippets keysOrder rangeOrder).Lists g =
        some l → s ∈ l.items → g = s.Folder) := by
  have key := Lists_lookup config snippets keysOrder rangeOrder hr
  have hitems : ∀ g l,
      GoMap.lookup (runInteractiveMode config snippets keysOrder rangeOrder).Lists g = some l →
      l.items = snippets.filter (fun s => decide (s.Folder = g)) := by
    intro g l hl
    rw [key g] at hl
    split_ifs at hl
    rw [← Option.some.inj hl]
    rfl
  refine ⟨?_, ?_, ?_, ?_⟩
  · rw [key f, if_pos hf]
  · intro g l hl s hs
    rw [hitems g l hl, List.mem_filter] at hs
    exact of_decide_eq_true hs.2
  · intro s hs
    refine ⟨newList (snippets.filter (fun t => decide (t.Folder = s.Folder))), ?_, ?_⟩
    · rw [key s.Folder, if_pos ⟨s, hs, rfl⟩]
    · exact List.mem_filter.mpr ⟨hs, decide_eq_true rfl⟩
  · intro s _ g l hl hs
    rw [hitems g l hl, List.mem_filter] at hs
    exact (of_decide_eq_true hs.2).symm

/-- C3 at the scenario store, ranging over the map in reverse order: the
sublist of `misc` is `[a.go, b.py]`. -/
theorem lists_per_folder_witness :
    GoMap.lookup (runInteractiveMode scenarioConfig (readSnippets (some scenarioRoot))
      List.reverse List.reverse).Lists "misc".toList =
      some (newList [⟨"misc".toList, "a".toList, [], "go".toList⟩,
                     ⟨"misc".toList, "b".toList, [], "py".toList⟩]) :=
  (lists_per_folder scenarioConfig (readSnippets (some scenarioRoot))
    List.reverse List.reverse (fun m => List.reverse_perm m) "misc".toList
    ⟨⟨"misc".toList, "a".toList, [], "go".toList⟩, by decide, rfl⟩).1

/-! ## C4 -/

/-- C4: for every snippet, `String` and `FilterValue` both equal
`Folder + "/" + Name + "." + Language`; the lines printed by `list` and the
strings the fuzzy matcher reads through `Snippets.String` are that same
identity string. -/
theorem identity_string (s : Snippet) :
    s.String = s.Folder ++ "/".toList ++ s.Name ++ ".".toList ++ s.Language ∧
    s.FilterValue = s.Folder ++ "/".toList ++ s.Name ++ ".".toList ++ s.Language ∧
    s.String = s.FilterValue ∧
    (∀ (snippets : List Snippet) (i : Nat), snippets.get? i = some s →
      Snippets_String snippets i =
        some (s.Folder ++ "/".toList ++ s.Name ++ ".".toList ++ s.Language)) ∧
    listSnippets [s] =
      [s.Folder ++ "/".toList ++ s.Name ++ ".".toList ++ s.Language ++ "\n".toList] := by
  have h1 : s.String = s.Folder ++ "/".toList ++ s.Name ++ ".".toList ++ s.Language := by
    simp [Snippet.String, fmt_Sprintf]
  refine ⟨h1, rfl, h1, ?_, ?_⟩
  · intro snippets i hi
    rw [Snippets_String, hi, Option.map_some', h1]
  · simp [listSnippets, h1]

/-- C4 at the snippet `misc/a.go`. -/
theorem identity_string_witness :
    Snippets_String [⟨"misc".toList, "a".toList, [], "go".toList⟩] 0 =
      some "misc/a.go".toList :=
  (identity_string ⟨"misc".toList, "a".toList, [], "go".toList⟩).2.2.2.1
    [⟨"misc".toList, "a".toList, [], "go".toList⟩] 0 rfl

/-! ## C5 -/

/-- C6 fails as stated: the distinct file names `a` and `a.txt` are both
parsed into name `a`, language `txt`, and a directory holding both yields the
same snippet twice. -/
theorem parseFileName_collision :
    "a".toList ≠ "a.txt".toList ∧
    parseFileName "a".toList = parseFileName "a.txt".toList ∧
    readSnippets (some [.file "a".toList, .file "a.txt".toList]) =
      [⟨"misc".toList, "a".toList, [], "txt".toList⟩,
       ⟨"misc".toList, "a".toList, [], "txt".toList⟩] := by
  decide

/-- C6, amended: two distinct file names are parsed into different
(name, language) pairs, and `parseFile` appends different snippets for them
under one folder, unless one of the two contains no `.` and the other is that
name followed by `.txt`. -/
theorem parseFileName_injective_except_txt (f g : Str) (hne : f ≠ g)
    (hfg : ¬ ('.' ∉ f ∧ g = f ++ ".txt".toList))
    (hgf : ¬ ('.' ∉ g ∧ f = g ++ ".txt".toList)) :
    parseFileName f ≠ parseFileName g ∧
    ∀ acc p, parseFile acc (.file f) p ≠ parseFile acc (.file g) p := by
  have key : parseFileName f ≠ parseFileName g := by
    intro h
    rcases parseFileName_eq_imp f g h with h1 | h1 | h1
    · exact hne h1
    · exact hfg h1
    · exact hgf h1
  refine ⟨key, fun acc p h => key ?_⟩
  rw [parseFile_file, parseFile_file] at h
  have h2 := List.append_cancel_left h
  simp only [List.cons.injEq, Snippet.mk.injEq, and_true, true_and] at h2
  exact Prod.ext h2.1 h2.2

/-- C6, amended, at the file names `a.go` and `b.go`. -/
theorem parseFileName_injective_except_txt_witness :
    parseFileName "a.go".toList ≠ parseFileName "b.go".toList ∧
    ∀ acc p, parseFile acc (.file "a.go".toList) p ≠ parseFile acc (.file "b.go".toList) p :=
  parseFileName_injective_except_txt "a.go".toList "b.go".toList
    (by decide) (by decide) (by decide)

/-! ## C7 -/

/-- C7 fails on the code: for a root holding the two files `a.go` and `b.go`,
`readSnippets` returns two different snippets, neither with its `File` field
set, and `Snippet.Content` reads the same path for both, the join of the
root, `misc` and the empty string. -/
theorem Content_file_shared (filepath_Join : List Str → Str) (config : Config) :
    readSnippets (some [.file "a.go".toList, .file "b.go".toList]) =
      [⟨"misc".toList, "a".toList, [], "go".toList⟩,
       ⟨"misc".toList, "b".toList, [], "go".toList⟩] ∧
    (⟨"misc".toList, "a".toList, [], "go".toList⟩ : Snippet) ≠
      ⟨"misc".toList, "b".toList, [], "go".toList⟩ ∧
    Snippet.ContentFile filepath_Join config ⟨"misc".toList, "a".toList, [], "go".toList⟩ =
      Snippet.ContentFile filepath_Join config ⟨"misc".toList, "b".toList, [], "go".toList⟩ ∧
    Snippet.ContentFile filepath_Join config ⟨"misc".toList, "a".toList, [], "go".toList⟩ =
      filepath_Join [config.Root, "misc".toList, []] := by
  refine ⟨by decide, by decide, rfl, rfl⟩

/-! ## C8 -/

/-- C8 fails on the code: with no snippet loaded, the model built by
`runInteractiveMode` has the folder list `[misc]` but an empty map of lists,
so no snippet list exists for `misc`; the slice holding the placeholder
default snippet is built and stored nowhere in the model. -/
theorem empty_store_no_list (config : Config) (keysOrder rangeOrder : MapOrder)
    (hk : keysOrder.Valid) (hr : rangeOrder.Valid) :
    (runInteractiveMode config [] keysOrder rangeOrder).Folders = [defaultSnippetFolder] ∧
    (runInteractiveMode config [] keysOrder rangeOrder).Lists = [] ∧
    GoMap.lookup (runInteractiveMode config [] keysOrder rangeOrder).Lists
      defaultSnippetFolder = none ∧
    placeholderItems = [defaultSnippet] := by
  have hL : (runInteractiveMode config [] keysOrder rangeOrder).Lists = [] := by
    show buildLists rangeOrder (buildFolders []) = []
    have h0 : rangeOrder (buildFolders []) = [] := List.Perm.eq_nil (hr (buildFolders []))
    rw [buildLists, h0]
    rfl
  have hF : (runInteractiveMode config [] keysOrder rangeOrder).Folders =
      [defaultSnippetFolder] := by
    show folderItems keysOrder (buildFolders []) = [defaultSnippetFolder]
    have h0 : keysOrder (buildFolders []) = [] := List.Perm.eq_nil (hk (buildFolders []))
    rw [folderItems_eq, maps_Keys, h0]
    rfl
  refine ⟨hF, hL, ?_, rfl⟩
  rw [hL]
  rfl

/-- C8 on the code, with the map enumerated in its stored order. -/
theorem empty_store_no_list_witness :
    (runInteractiveMode scenarioConfig [] id id).Folders = [defaultSnippetFolder] ∧
    (runInteractiveMode scenarioConfig [] id id).Lists = [] ∧
    GoMap.lookup (runInteractiveMode scenarioConfig [] id id).Lists
      defaultSnippetFolder = none ∧
    placeholderItems = [defaultSnippet] :=
  empty_store_no_list scenarioConfig id id (fun m => List.Perm.refl m)
    (fun m => List.Perm.refl m)

/-! ## C9 -/

/-- C9: over a directory tree, `readSnippets` returns the empty list when the
root cannot be read, and otherwise, in listing order, one snippet of folder
`misc` per top-level file and one snippet of folder `d` per file child of
each readable top-level subdirectory `d`; directory children of a
subdirectory and unreadable subdirectories contribute nothing. -/
theorem readSnippets_one_level (fd : List DirEntry) :
    readSnippets none = [] ∧
    readSnippets (some fd) = readSnippets_spec fd ∧
    readSnippets (some nestedRoot) =
      [⟨"misc".toList, "top".toList, [], "sh".toList⟩,
       ⟨"notes".toList, "c".toList, [], "md".toList⟩] := by
  exact ⟨rfl, readSnippets_one_level_aux fd, by decide⟩

/-! ## C10 -/

/-- C10: for all strings `F`, `N`, `L` containing neither `/` nor `.`,
`parseName` maps `F/N.L` to `(F, N, L)`, `N.L` to `(misc, N, L)` and `F/N` to
`(F, N, go)`: a missing folder defaults to the default snippet folder, a
missing extension to the default language. -/
theorem parseName_documented (F N L : Str)
    (hF : '/' ∉ F ∧ '.' ∉ F) (hN : '/' ∉ N ∧ '.' ∉ N) (hL : '/' ∉ L ∧ '.' ∉ L) :
    parseName (F ++ "/".toList ++ N ++ ".".toList ++ L) = (F, N, L) ∧
    parseName (N ++ ".".toList ++ L) = (defaultSnippetFolder, N, L) ∧
    parseName (F ++ "/".toList ++ N) = (F, N, defaultLanguage) := by
  have hNL : '/' ∉ N ++ '.' :: L := by
    simp [hN.1, hL.1]
  have e1 : F ++ "/".toList ++ N ++ ".".toList ++ L = F ++ '/' :: (N ++ '.' :: L) := by simp
  have e2 : N ++ ".".toList ++ L = N ++ '.' :: L := by simp
  have e3 : F ++ "/".toList ++ N = F ++ '/' :: N := by simp
  refine ⟨?_, ?_, ?_⟩
  · rw [e1]
    simp [parseName, strings_Split_two F _ '/' hF.1 hNL, strings_Split_two N L '.' hN.2 hL.2]
  · rw [e2]
    simp [parseName, strings_Split_of_not_mem _ '/' hNL, strings_Split_two N L '.' hN.2 hL.2]
  · rw [e3]
    simp [parseName, strings_Split_two F N '/' hF.1 hN.1, strings_Split_of_not_mem N '.' hN.2]

/-- C10 at the documented examples `Notes/Hello.go`, `Hello.go` and
`Notes/Hello`. -/
theorem parseName_documented_witness :
    parseName "Notes/Hello.go".toList = ("Notes".toList, "Hello".toList, "go".toList) ∧
    parseName "Hello.go".toList = ("misc".toList, "Hello".toList, "go".toList) ∧
    parseName "Notes/Hello".toList = ("Notes".toList, "Hello".toList, "go".toList) :=
  parseName_documented "Notes".toList "Hello".toList "go".toList
    (by decide) (by decide) (by decide)

/-! ## C11 -/

/-- C11 fails on the code: for the arguments with an empty name part, the empty
string, `.go` and `Notes/`, `parseName` returns the empty name and not
`Untitled`; the file that `saveSnippet` then writes for `.go` is named `.go`. -/
theorem parseName_empty_name :
    parseName "".toList = ("misc".toList, "".toList, "go".toList) ∧
    parseName ".go".toList = ("misc".toList, "".toList, "go".toList) ∧
    parseName "Notes/".toList = ("Notes".toList, "".toList, "go".toList) ∧
    (parseName "".toList).2.1 ≠ defaultSnippetName ∧
    (parseName ".go".toList).2.1 ≠ defaultSnippetName ∧
    (parseName "Notes/".toList).2.1 ≠ defaultSnippetName ∧
    saveSnippet_file (parseName ".go".toList).2.1 (parseName ".go".toList).2.2 =
      ".go".toList := by
  decide

/-! ## C12 -/

/-- C12: for every command-line name `s`, with `(folder, name, language)` the
result of `parseName s`, the file name `name + "." + language` that
`saveSnippet` writes is parsed back by the file-name parsing of
`readSnippets` into exactly `(name, language)`. -/
theorem parseName_saved_file_reparsed (s folder name language : Str)
    (h : parseName s = (folder, name, language)) :
    parseFileName (saveSnippet_file name language) = (name, language) := by
  have hl : '.' ∉ language := by
    have := parseName_language_dot_free s
    rw [h] at this
    exact this
  rw [saveSnippet_file_eq]
  exact parseFileName_append name language hl

/-- C12 at the command-line name `Notes/Hello.world.go`: stored as `Hello.world`,
read back as name `Hello`, language `world`. -/
theorem parseName_saved_file_reparsed_witness :
    parseName "Notes/Hello.world.go".toList =
      ("Notes".toList, "Hello".toList, "world".toList) ∧
    parseFileName (saveSnippet_file "Hello".toList "world".toList) =
      ("Hello".toList, "world".toList) :=
  ⟨by decide,
   parseName_saved_file_reparsed "Notes/Hello.world.go".toList
     "Notes".toList "Hello".toList "world".toList (by decide)⟩

end Snp
